import Mathlib

/-!
Verification of the markdown2pdf-mcp server core (`src/index.ts`, with the
renderer declaration `src/puppeteer/render.d.ts`).

Strings are embedded as `List Char`.  The JavaScript string-scanning
primitives used by the source (global regex replace, `String.prototype.trim`,
`toLowerCase`, `endsWith`, `Buffer` base64 encode/decode) are given
executable definitions below, and the source functions
(`processMermaidDiagrams`, `restoreMermaidDiagrams`, `getIncrementalPath`,
the output-filename normalisation, the render-delay selection, the HTML
document composition, the highlight callback and the top-level call handler)
are translated on top of them.  Scanning loops are written with an explicit
fuel argument equal to the length of the scanned text, so that every
definition is executable by the kernel; fuel-irrelevance lemmas show the
fuel never matters once it dominates the input length.
-/

set_option maxRecDepth 100000

/-- `startsWithL p s` : `p` is a prefix of `s` (JS `String.prototype.startsWith`). -/
def startsWithL : List Char → List Char → Bool
  | [], _ => true
  | _ :: _, [] => false
  | a :: as, b :: bs => a == b && startsWithL as bs

/-- `endsWithL p s` : `p` is a suffix of `s` (JS `String.prototype.endsWith`). -/
def endsWithL (p s : List Char) : Bool :=
  startsWithL p.reverse s.reverse

/-- Leftmost-occurrence splitter: `splitAtSub pat s = some (a, b)` when
`s = a ++ pat ++ b` and this is the first occurrence of `pat` in `s`;
`none` when `pat` does not occur.  This is the search step of a JS global
regex replace for a literal pattern. -/
def splitAtSub (pat : List Char) : List Char → Option (List Char × List Char)
  | [] => if pat.isEmpty then some ([], []) else none
  | c :: s =>
    if startsWithL pat (c :: s) then some ([], (c :: s).drop pat.length)
    else (splitAtSub pat s).map fun p => (c :: p.1, p.2)

/-- `containsSub pat s` : `pat` occurs as a contiguous substring of `s`
(an or-chain over all start positions, which the kernel evaluates in
constant stack). -/
def containsSub (pat : List Char) : List Char → Bool
  | [] => startsWithL pat []
  | c :: s => startsWithL pat (c :: s) || containsSub pat s

/-- A pattern is border-free when no proper nonempty prefix of it is also a
suffix; border-free patterns admit no self-overlapping occurrences. -/
def borderFree (pat : List Char) : Prop :=
  ∀ k, k < pat.length → 0 < k → pat.drop k ≠ pat.take (pat.length - k)

instance (pat : List Char) : Decidable (borderFree pat) :=
  Nat.decidableBallLT pat.length _

theorem startsWithL_iff (p s : List Char) :
    startsWithL p s = true ↔ ∃ t, s = p ++ t := by
  induction p generalizing s with
  | nil => simp [startsWithL]
  | cons a as ih =>
    cases s with
    | nil => simp [startsWithL]
    | cons b bs =>
      simp only [startsWithL, Bool.and_eq_true, beq_iff_eq, ih, List.cons_append]
      constructor
      · rintro ⟨rfl, t, rfl⟩; exact ⟨t, rfl⟩
      · rintro ⟨t, h⟩
        injection h with h1 h2
        exact ⟨h1.symm, t, h2⟩

theorem startsWithL_append_self (p t : List Char) :
    startsWithL p (p ++ t) = true := by
  rw [startsWithL_iff]; exact ⟨t, rfl⟩

theorem splitAtSub_sound {pat s a b : List Char}
    (h : splitAtSub pat s = some (a, b)) : s = a ++ pat ++ b := by
  induction s generalizing a with
  | nil =>
    by_cases hp : pat.isEmpty <;> simp [splitAtSub, hp] at h
    obtain ⟨rfl, rfl⟩ := h
    simp [List.isEmpty_iff.mp hp]
  | cons c s ih =>
    cases hsw : startsWithL pat (c :: s) with
    | true =>
      simp only [splitAtSub, hsw, if_pos] at h
      obtain ⟨t, ht⟩ := (startsWithL_iff pat (c :: s)).mp hsw
      injection h with h1
      injection h1 with ha hb
      subst ha
      rw [ht, List.drop_left] at hb
      subst hb
      simpa using ht
    | false =>
      simp only [splitAtSub, hsw, Bool.false_eq_true, if_false,
        Option.map_eq_some'] at h
      obtain ⟨⟨a', b'⟩, hsp, heq⟩ := h
      injection heq with ha hb
      subst hb
      have := ih hsp
      subst this
      rw [← ha]
      simp

theorem splitAtSub_self (pat t : List Char) :
    splitAtSub pat (pat ++ t) = some ([], t) := by
  cases pat with
  | nil =>
    cases t with
    | nil => simp [splitAtSub, List.isEmpty]
    | cons c s => simp [splitAtSub, startsWithL]
  | cons p pr =>
    have hsw : startsWithL (p :: pr) ((p :: pr) ++ t) = true :=
      startsWithL_append_self _ _
    simp only [List.cons_append] at hsw ⊢
    simp only [splitAtSub, hsw, if_pos]
    have : ((p :: pr) ++ t).drop (p :: pr).length = t := List.drop_left _ _
    simp only [List.cons_append] at this
    rw [this]

/-- If the head character of `pat` does not occur in `x`, searching in
`x ++ y` is searching in `y` (no occurrence can start inside `x`). -/
theorem splitAtSub_append_of_head_notin {p₀ : Char} {pr x y : List Char}
    (hx : p₀ ∉ x) :
    splitAtSub (p₀ :: pr) (x ++ y) =
      (splitAtSub (p₀ :: pr) y).map fun q => (x ++ q.1, q.2) := by
  induction x with
  | nil =>
    simp only [List.nil_append]
    cases h : splitAtSub (p₀ :: pr) y <;> simp
  | cons c x ih =>
    have hc : p₀ ≠ c := fun h => hx (h ▸ List.mem_cons_self c x)
    have hx' : p₀ ∉ x := fun h => hx (List.mem_cons_of_mem c h)
    have hsw : startsWithL (p₀ :: pr) (c :: (x ++ y)) = false := by
      simp [startsWithL, hc]
    rw [List.cons_append, splitAtSub]
    cases h : splitAtSub (p₀ :: pr) y <;> simp [hsw, ih hx', h]

theorem splitAtSub_none_of_head_notin {p₀ : Char} {pr x : List Char}
    (hx : p₀ ∉ x) : splitAtSub (p₀ :: pr) x = none := by
  have := @splitAtSub_append_of_head_notin p₀ pr x [] hx
  rw [List.append_nil] at this
  rw [this]
  simp [splitAtSub]

/-- Factoring through a clean prefix whose head char rules out occurrences:
the first match of `pat` in `x ++ pat ++ y` is exactly at the seam. -/
theorem splitAtSub_factor_head {p₀ : Char} {pr x y : List Char}
    (hx : p₀ ∉ x) :
    splitAtSub (p₀ :: pr) (x ++ (p₀ :: pr) ++ y) = some (x, y) := by
  rw [List.append_assoc, splitAtSub_append_of_head_notin hx, splitAtSub_self]
  simp

/-- Factoring through a clean prefix for a border-free pattern: if `pat` does
not occur in `x` and has no self-overlap, the first match of `pat` in
`x ++ pat ++ y` is exactly at the seam. -/
theorem splitAtSub_factor_border {pat x y : List Char}
    (hbf : borderFree pat) (hx : splitAtSub pat x = none) :
    splitAtSub pat (x ++ pat ++ y) = some (x, y) := by
  induction x with
  | nil =>
    simpa using splitAtSub_self pat y
  | cons c x ih =>
    have hpat : pat ≠ [] := by
      intro h
      subst h
      cases x <;> simp [splitAtSub, startsWithL] at hx
    have hsw1 : startsWithL pat (c :: x) = false := by
      cases hsw1 : startsWithL pat (c :: x) with
      | true => simp [splitAtSub, hsw1] at hx
      | false => rfl
    have hx' : splitAtSub pat x = none := by
      cases hs1 : splitAtSub pat x with
      | some v => simp [splitAtSub, hsw1, hs1] at hx
      | none => rfl
    cases hsw2 : startsWithL pat (c :: (x ++ pat ++ y)) with
    | true =>
      exfalso
      obtain ⟨t, ht⟩ := (startsWithL_iff _ _).mp hsw2
      have hpt : pat = ((c :: x) ++ (pat ++ y)).take pat.length := by
        have : (c :: x) ++ (pat ++ y) = pat ++ t := by simpa using ht
        rw [this, List.take_left]
      rw [List.take_append_eq_append_take] at hpt
      by_cases hlen : pat.length ≤ (c :: x).length
      · have h0 : pat.length - (c :: x).length = 0 := Nat.sub_eq_zero_of_le hlen
        rw [h0, List.take_zero, List.append_nil] at hpt
        have : startsWithL pat (c :: x) = true := by
          rw [startsWithL_iff]
          refine ⟨(c :: x).drop pat.length, ?_⟩
          have htd : (c :: x).take pat.length ++ (c :: x).drop pat.length =
              c :: x := List.take_append_drop _ _
          rw [← hpt] at htd
          exact htd.symm
        rw [this] at hsw1
        exact Bool.noConfusion hsw1
      · push_neg at hlen
        have hm : (c :: x).length < pat.length := hlen
        have htk : (c :: x).take pat.length = c :: x :=
          List.take_of_length_le (Nat.le_of_lt hm)
        rw [htk] at hpt
        have hrest : (pat ++ y).take (pat.length - (c :: x).length) =
            pat.take (pat.length - (c :: x).length) := by
          rw [List.take_append_eq_append_take,
            Nat.sub_eq_zero_of_le (Nat.le_of_lt (Nat.sub_lt_of_pos_le
              (by simp) (Nat.le_of_lt hm))), List.take_zero, List.append_nil]
        rw [hrest] at hpt
        have hdrop : pat.drop (c :: x).length =
            pat.take (pat.length - (c :: x).length) := by
          have := congrArg (List.drop (c :: x).length) hpt
          rwa [List.drop_left] at this
        exact hbf (c :: x).length hm (by simp) hdrop
    | false =>
      have hsw2' : startsWithL pat (c :: (x ++ (pat ++ y))) = false := by
        simpa [List.append_assoc] using hsw2
      have hgoal : (c :: x) ++ pat ++ y = c :: (x ++ (pat ++ y)) := by simp
      rw [hgoal, splitAtSub, hsw2']
      have ih' : splitAtSub pat (x ++ (pat ++ y)) = some (x, y) := by
        simpa [List.append_assoc] using ih hx'
      simp [ih']

theorem containsSub_eq_isSome (pat : List Char) :
    ∀ s, containsSub pat s = (splitAtSub pat s).isSome := by
  intro s
  induction s with
  | nil =>
    cases pat with
    | nil => rfl
    | cons p pr => rfl
  | cons c s ih =>
    cases hsw : startsWithL pat (c :: s) with
    | true => simp [containsSub, splitAtSub, hsw]
    | false =>
      simp only [containsSub, splitAtSub, hsw, Bool.false_or,
        Bool.false_eq_true, if_false, ih]
      cases splitAtSub pat s <;> simp

theorem containsSub_eq_false_iff (pat s : List Char) :
    containsSub pat s = false ↔ splitAtSub pat s = none := by
  rw [containsSub_eq_isSome]
  cases splitAtSub pat s <;> simp

theorem containsSub_of_decomp {pat a b : List Char} :
    containsSub pat (a ++ pat ++ b) = true := by
  rw [containsSub_eq_isSome]
  induction a with
  | nil =>
    rw [List.nil_append, splitAtSub_self]
    rfl
  | cons c a ih =>
    have : (c :: a) ++ pat ++ b = c :: (a ++ pat ++ b) := by simp
    rw [this, splitAtSub]
    cases hsw : startsWithL pat (c :: (a ++ pat ++ b)) with
    | true => simp
    | false =>
      have ha : a ++ pat ++ b = a ++ (pat ++ b) := by simp
      rw [ha] at ih ⊢
      cases h : splitAtSub pat (a ++ (pat ++ b)) with
      | some v => simp [h]
      | none => rw [h] at ih; simp at ih

theorem containsSub_append_right {pat a x : List Char}
    (h : containsSub pat (a ++ x) = false) : containsSub pat a = false := by
  cases hc : containsSub pat a with
  | false => rfl
  | true =>
    exfalso
    rw [containsSub_eq_isSome] at hc
    obtain ⟨⟨u, v⟩, huv⟩ := Option.isSome_iff_exists.mp hc
    have := splitAtSub_sound huv
    subst this
    have : (u ++ pat ++ v) ++ x = u ++ pat ++ (v ++ x) := by simp
    rw [this, containsSub_of_decomp] at h
    exact Bool.noConfusion h

theorem containsSub_eq_false_of_head_notin {p₀ : Char} {pr x : List Char}
    (hx : p₀ ∉ x) : containsSub (p₀ :: pr) x = false := by
  rw [containsSub_eq_false_iff]
  exact splitAtSub_none_of_head_notin hx

theorem takeWhile_append_of_all {p : Char → Bool} {a b : List Char}
    (h : ∀ c ∈ a, p c = true) :
    (a ++ b).takeWhile p = a ++ b.takeWhile p := by
  induction a with
  | nil => simp
  | cons c a ih =>
    have hc : p c = true := h c (List.mem_cons_self c a)
    simp only [List.cons_append, List.takeWhile_cons, hc, if_true]
    rw [ih fun d hd => h d (List.mem_cons_of_mem c hd)]

theorem dropWhile_append_of_all {p : Char → Bool} {a b : List Char}
    (h : ∀ c ∈ a, p c = true) :
    (a ++ b).dropWhile p = b.dropWhile p := by
  induction a with
  | nil => simp
  | cons c a ih =>
    have hc : p c = true := h c (List.mem_cons_self c a)
    simp only [List.cons_append, List.dropWhile_cons, hc, if_true]
    exact ih fun d hd => h d (List.mem_cons_of_mem c hd)

/-! ## JavaScript string primitives -/

/-- The ASCII part of the JS whitespace class used by `String.prototype.trim`. -/
def isJsSpace (c : Char) : Bool :=
  c = ' ' || c = '\t' || c = '\n' || c = '\r' || c = '\x0b' || c = '\x0c'

/-- JS `String.prototype.trim` (restricted to ASCII whitespace). -/
def jsTrim (s : List Char) : List Char :=
  ((s.dropWhile isJsSpace).reverse.dropWhile isJsSpace).reverse

/-- JS `String.prototype.toLowerCase`, on the ASCII range (`Char.toLower`
lowers exactly `'A'..'Z'`, which is what `toLowerCase` does on ASCII input). -/
def toLowerL (s : List Char) : List Char :=
  s.map Char.toLower

/-! ## Base64 (`Buffer.from(...).toString('base64')` and back)

The encoder is standard RFC 4648 base64 with padding, which is what Node's
`Buffer.toString('base64')` produces.  The decoder is a strict reader that
agrees with Node's decoder on every well-formed base64 string (in particular
on every encoder output); a failure is modelled as `none`. -/

def b64Alphabet : List Char :=
  ("ABCDEFGHIJKLMNOPQRSTUVWXYZabcdefghijklmnopqrstuvwxyz0123456789+/").toList

def b64EncChar (n : Nat) : Char :=
  b64Alphabet.getD n 'A'

def b64Encode : List Nat → List Char
  | [] => []
  | [a] => [b64EncChar (a / 4), b64EncChar (a % 4 * 16), '=', '=']
  | [a, b] =>
    [b64EncChar (a / 4), b64EncChar (a % 4 * 16 + b / 16),
      b64EncChar (b % 16 * 4), '=']
  | a :: b :: c :: rest =>
    b64EncChar (a / 4) :: b64EncChar (a % 4 * 16 + b / 16) ::
      b64EncChar (b % 16 * 4 + c / 64) :: b64EncChar (c % 64) :: b64Encode rest

def idxOfAux : List Char → Char → Nat → Option Nat
  | [], _, _ => none
  | a :: as, c, i => if a == c then some i else idxOfAux as c (i + 1)

/-- The 6-bit value of a base64 alphabet character. -/
def b64Val (c : Char) : Option Nat :=
  idxOfAux b64Alphabet c 0

def b64Decode : List Char → Option (List Nat)
  | [] => some []
  | c1 :: c2 :: c3 :: c4 :: rest =>
    match b64Val c1, b64Val c2 with
    | some v1, some v2 =>
      if c3 = '=' then
        if c4 = '=' ∧ rest = [] then some [v1 * 4 + v2 / 16] else none
      else
        match b64Val c3 with
        | some v3 =>
          if c4 = '=' then
            if rest = [] then some [v1 * 4 + v2 / 16, v2 % 16 * 16 + v3 / 4]
            else none
          else
            match b64Val c4 with
            | some v4 =>
              (b64Decode rest).map fun t =>
                (v1 * 4 + v2 / 16) :: (v2 % 16 * 16 + v3 / 4) ::
                  (v3 % 4 * 64 + v4) :: t
            | none => none
        | none => none
    | _, _ => none
  | _ => none

/-- The character set accepted by the placeholder regex `[A-Za-z0-9+/=]`. -/
def isB64Char (c : Char) : Bool :=
  c.isAlpha || c.isDigit || c = '+' || c = '/' || c = '='

theorem b64Val_encChar : ∀ v, v < 64 → b64Val (b64EncChar v) = some v := by
  decide

theorem b64EncChar_ne_pad : ∀ v, v < 64 → b64EncChar v ≠ '=' := by
  decide

theorem isB64Char_encChar : ∀ v, v < 64 → isB64Char (b64EncChar v) = true := by
  decide

theorem b64_roundtrip :
    ∀ bs : List Nat, (∀ b ∈ bs, b < 256) → b64Decode (b64Encode bs) = some bs := by
  intro bs
  induction bs using b64Encode.induct with
  | case1 => intro _; rfl
  | case2 a =>
    intro h
    have ha : a < 256 := h a (by simp)
    have h1 : a / 4 < 64 := by omega
    have h2 : a % 4 * 16 < 64 := by omega
    simp [b64Encode, b64Decode, b64Val_encChar _ h1, b64Val_encChar _ h2]
    omega
  | case3 a b =>
    intro h
    have ha : a < 256 := h a (by simp)
    have hb : b < 256 := h b (by simp)
    have h1 : a / 4 < 64 := by omega
    have h2 : a % 4 * 16 + b / 16 < 64 := by omega
    have h3 : b % 16 * 4 < 64 := by omega
    simp [b64Encode, b64Decode, b64Val_encChar _ h1, b64Val_encChar _ h2,
      b64Val_encChar _ h3, b64EncChar_ne_pad _ h3]
    omega
  | case4 a b c rest ih =>
    intro h
    have ha : a < 256 := h a (by simp)
    have hb : b < 256 := h b (by simp)
    have hc : c < 256 := h c (by simp)
    have hrest : ∀ x ∈ rest, x < 256 := fun x hx => h x (by simp [hx])
    have h1 : a / 4 < 64 := by omega
    have h2 : a % 4 * 16 + b / 16 < 64 := by omega
    have h3 : b % 16 * 4 + c / 64 < 64 := by omega
    have h4 : c % 64 < 64 := by omega
    simp [b64Encode, b64Decode, b64Val_encChar _ h1, b64Val_encChar _ h2,
      b64Val_encChar _ h3, b64Val_encChar _ h4, b64EncChar_ne_pad _ h3,
      b64EncChar_ne_pad _ h4, ih hrest]
    refine ⟨by omega, by omega, by omega⟩

/-- UTF-8 bytes of a string, faithful for ASCII text (`Buffer.from(s)`). -/
def strBytes (s : List Char) : List Nat :=
  s.map Char.toNat

/-- String from bytes, faithful for ASCII byte sequences
(`buffer.toString('utf-8')`). -/
def bytesStr (bs : List Nat) : List Char :=
  bs.map Char.ofNat

def b64EncodeStr (s : List Char) : List Char :=
  b64Encode (strBytes s)

def b64DecodeStr (s : List Char) : Option (List Char) :=
  (b64Decode s).map bytesStr

theorem b64Str_roundtrip (s : List Char) (h : ∀ c ∈ s, c.toNat < 256) :
    b64DecodeStr (b64EncodeStr s) = some s := by
  unfold b64DecodeStr b64EncodeStr
  rw [b64_roundtrip (strBytes s) (by simpa [strBytes] using h)]
  simp [bytesStr, strBytes, List.map_map, Function.comp_def]

theorem b64Encode_all_b64 :
    ∀ bs : List Nat, (∀ b ∈ bs, b < 256) →
      ∀ c ∈ b64Encode bs, isB64Char c = true := by
  intro bs
  induction bs using b64Encode.induct with
  | case1 => intro _ c hc; simp [b64Encode] at hc
  | case2 a =>
    intro h c hc
    have ha : a < 256 := h a (by simp)
    simp only [b64Encode, List.mem_cons, List.not_mem_nil, or_false] at hc
    rcases hc with rfl | rfl | rfl | rfl
    · exact isB64Char_encChar _ (by omega)
    · exact isB64Char_encChar _ (by omega)
    · decide
    · decide
  | case3 a b =>
    intro h c hc
    have ha : a < 256 := h a (by simp)
    have hb : b < 256 := h b (by simp)
    simp only [b64Encode, List.mem_cons, List.not_mem_nil, or_false] at hc
    rcases hc with rfl | rfl | rfl | rfl
    · exact isB64Char_encChar _ (by omega)
    · exact isB64Char_encChar _ (by omega)
    · exact isB64Char_encChar _ (by omega)
    · decide
  | case4 a b c rest ih =>
    intro h d hd
    have ha : a < 256 := h a (by simp)
    have hb : b < 256 := h b (by simp)
    have hc : c < 256 := h c (by simp)
    have hrest : ∀ x ∈ rest, x < 256 := fun x hx => h x (by simp [hx])
    simp only [b64Encode, List.mem_cons] at hd
    rcases hd with rfl | rfl | rfl | rfl | hd
    · exact isB64Char_encChar _ (by omega)
    · exact isB64Char_encChar _ (by omega)
    · exact isB64Char_encChar _ (by omega)
    · exact isB64Char_encChar _ (by omega)
    · exact ih hrest d hd

theorem b64Encode_ne_nil {bs : List Nat} (h : bs ≠ []) : b64Encode bs ≠ [] := by
  match bs, h with
  | [a], _ => simp [b64Encode]
  | [a, b], _ => simp [b64Encode]
  | a :: b :: c :: rest, _ => simp [b64Encode]

/-! ## The Diagram Protector (`processMermaidDiagrams`, src/index.ts 201-216)

The source replaces every match of the global, non-greedy regex
```` /```mermaid\n([\s\S]*?)``` ````/g` by
`MERMAID_DIAGRAM_PLACEHOLDER_` + base64 of the trimmed capture, setting
`hasMermaidDiagrams` on the first match.  A global literal-anchored
non-greedy regex replace is: find the leftmost `"```mermaid\n"`, then the
earliest following `"```"`, replace, continue after the match.  The scanner
below does exactly that; the fuel argument (instantiated with the text
length, which the step-wise length decrease makes sufficient) only makes
the recursion structural. -/

def openFenceL : List Char := ("```mermaid\n").toList

def closeFenceL : List Char := ("```").toList

def markerL : List Char := ("MERMAID_DIAGRAM_PLACEHOLDER_").toList

/-- The replacement for one matched mermaid block
(src/index.ts 212: ``MERMAID_DIAGRAM_PLACEHOLDER_${Buffer.from(code.trim()).toString('base64')}``). -/
def placeholderOf (code : List Char) : List Char :=
  markerL ++ b64EncodeStr (jsTrim code)

def pmAux : Nat → List Char → List Char × Bool
  | 0, s => (s, false)
  | fuel + 1, s =>
    match splitAtSub openFenceL s with
    | none => (s, false)
    | some (pre, r1) =>
      match splitAtSub closeFenceL r1 with
      | none => (s, false)
      | some (body, r2) =>
        let t := pmAux fuel r2
        (pre ++ placeholderOf body ++ t.1, true)

def processMermaidDiagrams (s : List Char) : List Char × Bool :=
  pmAux s.length s

/-! ## The Diagram Restorer (`restoreMermaidDiagrams`, src/index.ts 218-229)

The source replaces every match of `/MERMAID_DIAGRAM_PLACEHOLDER_([A-Za-z0-9+/=]+)/g`:
on a successful base64 decode by `<div class="mermaid">…</div>`, on a decode
exception by `<div class="mermaid-error">…</div>`.  The decoder
(`Buffer.from(encodedCode, 'base64').toString('utf-8')`, a Node library
call) is passed as a parameter `dec`, an exception modelled as `none`.
A marker not followed by any payload character is not a match (the regex
needs at least one) and is left in place; since the marker has no
self-overlap (`markerL_borderFree` below), the scan can continue right
after it. -/

def divOpenL : List Char := ("<div class=\"mermaid\">").toList

def divCloseL : List Char := ("</div>").toList

def errDivL : List Char :=
  ("<div class=\"mermaid-error\">Error processing diagram</div>").toList

def rsAux (dec : List Char → Option (List Char)) :
    Nat → List Char → List Char
  | 0, s => s
  | fuel + 1, s =>
    match splitAtSub markerL s with
    | none => s
    | some (pre, rest) =>
      let payload := rest.takeWhile isB64Char
      if payload.isEmpty then pre ++ markerL ++ rsAux dec fuel rest
      else
        pre ++
          (match dec payload with
            | some code => divOpenL ++ code ++ divCloseL
            | none => errDivL) ++
          rsAux dec fuel (rest.dropWhile isB64Char)

def restoreMermaidDiagrams (dec : List Char → Option (List Char))
    (s : List Char) : List Char :=
  rsAux dec s.length s

theorem markerL_borderFree : borderFree markerL := by decide

theorem divOpenL_borderFree : borderFree divOpenL := by decide

theorem divCloseL_borderFree : borderFree divCloseL := by decide

/-! ## Structured markdown documents

`mkDoc first blocks` is a markdown text interleaving plain segments with
fenced mermaid blocks: `first`, then for each `(body, seg)` in `blocks` the
block ```` ```mermaid\n<body>``` ```` followed by `seg`.  The side condition
`blocksOk`/`tickFree` (no backtick in the plain segments and bodies) is what
makes the fences of `mkDoc` the only fences of the document. -/

def mkDoc (first : List Char) : List (List Char × List Char) → List Char
  | [] => first
  | (body, seg) :: rest =>
    first ++ openFenceL ++ body ++ closeFenceL ++ mkDoc seg rest

/-- The protector's output on `mkDoc first blocks`: each block replaced by
its placeholder token. -/
def protOut (first : List Char) : List (List Char × List Char) → List Char
  | [] => first
  | (body, seg) :: rest => first ++ placeholderOf body ++ protOut seg rest

def tickFree (s : List Char) : Bool :=
  s.all fun c => c != '`'

def blocksOk : List (List Char × List Char) → Bool
  | [] => true
  | (body, seg) :: rest => tickFree body && tickFree seg && blocksOk rest

theorem tickFree_notin {s : List Char} (h : tickFree s = true) : '`' ∉ s := by
  intro hm
  simp only [tickFree, List.all_eq_true] at h
  have := h '`' hm
  simp at this

theorem splitAtSub_length {pat s a b : List Char}
    (h : splitAtSub pat s = some (a, b)) :
    a.length + pat.length + b.length = s.length := by
  have := splitAtSub_sound h
  subst this
  simp only [List.length_append]

theorem openFenceL_cons : openFenceL = '`' :: ("``mermaid\n").toList := by
  decide

theorem closeFenceL_cons : closeFenceL = '`' :: ("``").toList := by
  decide

theorem openFenceL_length : openFenceL.length = 11 := by decide

theorem closeFenceL_length : closeFenceL.length = 3 := by decide

theorem markerL_length : markerL.length = 28 := by decide

/-- The protector on a structured document: every block becomes its
placeholder, the flag is set exactly when there is at least one block. -/
theorem pmAux_mkDoc :
    ∀ (blocks : List (List Char × List Char)) (first : List Char) (fuel : Nat),
      (mkDoc first blocks).length ≤ fuel →
      tickFree first = true → blocksOk blocks = true →
      pmAux fuel (mkDoc first blocks) = (protOut first blocks, !blocks.isEmpty) := by
  intro blocks
  induction blocks with
  | nil =>
    intro first fuel _ hfirst _
    have hnone : splitAtSub openFenceL first = none := by
      rw [openFenceL_cons]
      exact splitAtSub_none_of_head_notin (tickFree_notin hfirst)
    cases fuel with
    | zero => simp [mkDoc, pmAux, protOut, List.isEmpty]
    | succ f => simp [mkDoc, pmAux, hnone, protOut, List.isEmpty]
  | cons bs rest ih =>
    obtain ⟨body, seg⟩ := bs
    intro first fuel hfuel hfirst hblocks
    simp only [blocksOk, Bool.and_eq_true] at hblocks
    obtain ⟨⟨hbody, hseg⟩, hrest⟩ := hblocks
    have hdoc : mkDoc first ((body, seg) :: rest) =
        first ++ openFenceL ++ (body ++ closeFenceL ++ mkDoc seg rest) := by
      simp [mkDoc]
    have hsplit1 : splitAtSub openFenceL
        (first ++ openFenceL ++ (body ++ closeFenceL ++ mkDoc seg rest)) =
        some (first, body ++ closeFenceL ++ mkDoc seg rest) := by
      rw [openFenceL_cons]
      exact splitAtSub_factor_head (tickFree_notin hfirst)
    have hsplit2 : splitAtSub closeFenceL
        (body ++ closeFenceL ++ mkDoc seg rest) =
        some (body, mkDoc seg rest) := by
      rw [closeFenceL_cons]
      exact splitAtSub_factor_head (tickFree_notin hbody)
    have hlen : (mkDoc first ((body, seg) :: rest)).length =
        first.length + 11 + body.length + 3 + (mkDoc seg rest).length := by
      simp only [mkDoc, List.length_append, openFenceL_length,
        closeFenceL_length]
    cases fuel with
    | zero =>
      exfalso
      rw [hlen] at hfuel
      omega
    | succ f =>
      have hf : (mkDoc seg rest).length ≤ f := by
        rw [hlen] at hfuel
        omega
      rw [hdoc, pmAux]
      simp only [hsplit1, hsplit2, ih seg f hf hseg hrest]
      simp [protOut, List.isEmpty]

theorem processMermaidDiagrams_mkDoc
    {first : List Char} {blocks : List (List Char × List Char)}
    (hfirst : tickFree first = true) (hblocks : blocksOk blocks = true) :
    processMermaidDiagrams (mkDoc first blocks) =
      (protOut first blocks, !blocks.isEmpty) :=
  pmAux_mkDoc blocks first (mkDoc first blocks).length (Nat.le_refl _)
    hfirst hblocks

/-! ## Placeholder chains

`tokenChain` is the general shape of a text containing placeholder tokens:
for each `(p, r)` in the chain, the marker, its payload `p`, then the plain
segment `r`.  `chainOk` states the side conditions under which the restorer
recognises exactly these tokens: each payload is a nonempty run of payload
characters, no segment contains the marker, and a segment standing between
two tokens is nonempty and does not start with a payload character (else the
greedy payload of the regex would eat into it). -/

def tokenChain : List (List Char × List Char) → List Char
  | [] => []
  | (p, r) :: rest => markerL ++ p ++ r ++ tokenChain rest

/-- What the restorer substitutes for one recognised token with payload `p`
(src/index.ts 220-227): the mermaid container on decode success, the error
container on decode failure. -/
def divOfDec (dec : List Char → Option (List Char)) (p : List Char) :
    List Char :=
  match dec p with
  | some code => divOpenL ++ code ++ divCloseL
  | none => errDivL

def restoredChain (dec : List Char → Option (List Char)) :
    List (List Char × List Char) → List Char
  | [] => []
  | (p, r) :: rest => divOfDec dec p ++ r ++ restoredChain dec rest

def segWall (r : List Char) (restEmpty : Bool) : Bool :=
  match r with
  | [] => restEmpty
  | c :: _ => !isB64Char c

def chainOk : List (List Char × List Char) → Bool
  | [] => true
  | (p, r) :: rest =>
    !p.isEmpty && p.all isB64Char && !containsSub markerL r &&
      segWall r rest.isEmpty && chainOk rest

/-- The restorer on a token chain: every token is replaced, independently of
the others, by `divOfDec dec` of its payload; the surrounding segments are
untouched. -/
theorem rsAux_chain (dec : List Char → Option (List Char)) :
    ∀ (chain : List (List Char × List Char)) (r0 : List Char) (fuel : Nat),
      (r0 ++ tokenChain chain).length ≤ fuel →
      containsSub markerL r0 = false → chainOk chain = true →
      rsAux dec fuel (r0 ++ tokenChain chain) = r0 ++ restoredChain dec chain := by
  intro chain
  induction chain with
  | nil =>
    intro r0 fuel _ h0 _
    have hnone : splitAtSub markerL r0 = none :=
      (containsSub_eq_false_iff _ _).mp h0
    cases fuel with
    | zero => simp [tokenChain, rsAux, restoredChain]
    | succ f => simp [tokenChain, rsAux, hnone, restoredChain]
  | cons pr rest ih =>
    obtain ⟨p, r⟩ := pr
    intro r0 fuel hfuel h0 hchain
    simp only [chainOk, Bool.and_eq_true] at hchain
    obtain ⟨⟨⟨⟨hpne, hpall⟩, hrmark⟩, hwall⟩, hrest⟩ := hchain
    have hpall' : ∀ c ∈ p, isB64Char c = true := List.all_eq_true.mp hpall
    have hs : r0 ++ tokenChain ((p, r) :: rest) =
        r0 ++ markerL ++ (p ++ (r ++ tokenChain rest)) := by
      simp [tokenChain]
    have hsplit : splitAtSub markerL
        (r0 ++ markerL ++ (p ++ (r ++ tokenChain rest))) =
        some (r0, p ++ (r ++ tokenChain rest)) :=
      splitAtSub_factor_border markerL_borderFree
        ((containsSub_eq_false_iff _ _).mp h0)
    have htail : (r ++ tokenChain rest).takeWhile isB64Char = [] := by
      cases hr : r with
      | nil =>
        have : rest = [] := by
          rw [hr] at hwall
          simpa [segWall, List.isEmpty_iff] using hwall
        simp [this, tokenChain]
      | cons c rs =>
        have : isB64Char c = false := by
          rw [hr] at hwall
          simpa [segWall] using hwall
        simp [List.takeWhile_cons, this]
    have htake : (p ++ (r ++ tokenChain rest)).takeWhile isB64Char = p := by
      rw [takeWhile_append_of_all hpall', htail, List.append_nil]
    have hdroptail : (r ++ tokenChain rest).dropWhile isB64Char =
        r ++ tokenChain rest := by
      cases hr : r with
      | nil =>
        have : rest = [] := by
          rw [hr] at hwall
          simpa [segWall, List.isEmpty_iff] using hwall
        simp [this, tokenChain]
      | cons c rs =>
        have : isB64Char c = false := by
          rw [hr] at hwall
          simpa [segWall] using hwall
        simp [List.dropWhile_cons, this]
    have hdrop : (p ++ (r ++ tokenChain rest)).dropWhile isB64Char =
        r ++ tokenChain rest := by
      rw [dropWhile_append_of_all hpall', hdroptail]
    have hlen : (r0 ++ tokenChain ((p, r) :: rest)).length =
        r0.length + 28 + p.length + (r ++ tokenChain rest).length := by
      simp only [tokenChain, List.length_append, markerL_length]
      omega
    cases fuel with
    | zero =>
      exfalso
      rw [hlen] at hfuel
      omega
    | succ f =>
      have hf : (r ++ tokenChain rest).length ≤ f := by
        rw [hlen] at hfuel
        omega
      rw [hs, rsAux]
      simp only [hsplit, htake, hdrop]
      have hpe : p.isEmpty = false := by
        simpa using hpne
      rw [if_neg (by simp [hpe])]
      have ihr : rsAux dec f (r ++ tokenChain rest) =
          r ++ restoredChain dec rest :=
        ih r f hf ((containsSub_eq_false_iff _ _).mpr
          ((containsSub_eq_false_iff _ _).mp (by simpa using hrmark))) hrest
      rw [ihr]
      simp [restoredChain, divOfDec]

theorem restoreMermaidDiagrams_chain (dec : List Char → Option (List Char))
    {chain : List (List Char × List Char)} {r0 : List Char}
    (h0 : containsSub markerL r0 = false) (hchain : chainOk chain = true) :
    restoreMermaidDiagrams dec (r0 ++ tokenChain chain) =
      r0 ++ restoredChain dec chain :=
  rsAux_chain dec chain r0 (r0 ++ tokenChain chain).length (Nat.le_refl _)
    h0 hchain

/-! ## Extracting the diagram containers of an HTML text

`extractMermaidDivs` is a verification-side parser (not part of the source):
it lists, in document order, the text content of every
`<div class="mermaid">…</div>` container of an HTML text.  It lets the
round-trip theorems state "the final HTML contains exactly the expected
containers, in order". -/

def edAux : Nat → List Char → List (List Char)
  | 0, _ => []
  | fuel + 1, s =>
    match splitAtSub divOpenL s with
    | none => []
    | some (_, r1) =>
      match splitAtSub divCloseL r1 with
      | none => []
      | some (body, r2) => body :: edAux fuel r2

def extractMermaidDivs (s : List Char) : List (List Char) :=
  edAux s.length s

/-- The shape of an HTML text holding a list of mermaid containers
interleaved with plain segments: for each `(t, r)`, the container with text
`t` followed by the segment `r`. -/
def divChain : List (List Char × List Char) → List Char
  | [] => []
  | (t, r) :: rest => divOpenL ++ t ++ divCloseL ++ r ++ divChain rest

def divChainOk : List (List Char × List Char) → Bool
  | [] => true
  | (t, r) :: rest =>
    !containsSub divCloseL t && !containsSub divOpenL r && divChainOk rest

theorem divOpenL_length : divOpenL.length = 21 := by decide

theorem divCloseL_length : divCloseL.length = 6 := by decide

theorem edAux_chain :
    ∀ (chain : List (List Char × List Char)) (r0 : List Char) (fuel : Nat),
      (r0 ++ divChain chain).length ≤ fuel →
      containsSub divOpenL r0 = false → divChainOk chain = true →
      edAux fuel (r0 ++ divChain chain) = chain.map Prod.fst := by
  intro chain
  induction chain with
  | nil =>
    intro r0 fuel _ h0 _
    have hnone : splitAtSub divOpenL r0 = none :=
      (containsSub_eq_false_iff _ _).mp h0
    cases fuel with
    | zero => simp [divChain, edAux]
    | succ f => simp [divChain, edAux, hnone]
  | cons tr rest ih =>
    obtain ⟨t, r⟩ := tr
    intro r0 fuel hfuel h0 hchain
    simp only [divChainOk, Bool.and_eq_true] at hchain
    obtain ⟨⟨ht, hr⟩, hrest⟩ := hchain
    have hs : r0 ++ divChain ((t, r) :: rest) =
        r0 ++ divOpenL ++ (t ++ divCloseL ++ (r ++ divChain rest)) := by
      simp [divChain]
    have hsplit1 : splitAtSub divOpenL
        (r0 ++ divOpenL ++ (t ++ divCloseL ++ (r ++ divChain rest))) =
        some (r0, t ++ divCloseL ++ (r ++ divChain rest)) :=
      splitAtSub_factor_border divOpenL_borderFree
        ((containsSub_eq_false_iff _ _).mp h0)
    have hsplit2 : splitAtSub divCloseL
        (t ++ divCloseL ++ (r ++ divChain rest)) =
        some (t, r ++ divChain rest) :=
      splitAtSub_factor_border divCloseL_borderFree
        ((containsSub_eq_false_iff _ _).mp (by simpa using ht))
    have hlen : (r0 ++ divChain ((t, r) :: rest)).length =
        r0.length + 21 + t.length + 6 + (r ++ divChain rest).length := by
      simp only [divChain, List.length_append, divOpenL_length,
        divCloseL_length]
      omega
    cases fuel with
    | zero =>
      exfalso
      rw [hlen] at hfuel
      omega
    | succ f =>
      have hf : (r ++ divChain rest).length ≤ f := by
        rw [hlen] at hfuel
        omega
      rw [hs, edAux]
      simp only [hsplit1, hsplit2]
      rw [ih r f hf (by simpa using hr) hrest]
      simp

theorem extractMermaidDivs_chain
    {chain : List (List Char × List Char)} {r0 : List Char}
    (h0 : containsSub divOpenL r0 = false) (hchain : divChainOk chain = true) :
    extractMermaidDivs (r0 ++ divChain chain) = chain.map Prod.fst :=
  edAux_chain chain r0 (r0 ++ divChain chain).length (Nat.le_refl _) h0 hchain

/-! ## The protect / render / restore round trip

The markdown renderer (the Remarkable library call at src/index.ts 286) is
an external collaborator; the round-trip statements quantify over its
output: any HTML of the shape `renderedOf r0 blocks rs` — the placeholder
tokens produced by the protector kept intact, the plain text around them
rewritten arbitrarily into HTML segments `r0, rs` satisfying `segsOk` —
is restored to `finalOf r0 blocks rs`, whose mermaid containers are exactly
the trimmed bodies of the original blocks, in order. -/

def payloadChainOf (blocks : List (List Char × List Char))
    (rs : List (List Char)) : List (List Char × List Char) :=
  (blocks.map fun bs => b64EncodeStr (jsTrim bs.1)).zip rs

def trimChainOf (blocks : List (List Char × List Char))
    (rs : List (List Char)) : List (List Char × List Char) :=
  (blocks.map fun bs => jsTrim bs.1).zip rs

def renderedOf (r0 : List Char) (blocks : List (List Char × List Char))
    (rs : List (List Char)) : List Char :=
  r0 ++ tokenChain (payloadChainOf blocks rs)

def finalOf (r0 : List Char) (blocks : List (List Char × List Char))
    (rs : List (List Char)) : List Char :=
  r0 ++ divChain (trimChainOf blocks rs)

/-- Conditions on one diagram body: its trimmed form is nonempty, is ASCII
(so that the UTF-8/base64 embedding is byte-faithful), and does not contain
the container-closing tag. -/
def bodyOk (body : List Char) : Bool :=
  !(jsTrim body).isEmpty &&
    ((jsTrim body).all fun c => decide (c.toNat < 128)) &&
    !containsSub divCloseL (jsTrim body)

def bodiesOk (blocks : List (List Char × List Char)) : Bool :=
  blocks.all fun bs => bodyOk bs.1

/-- Conditions on the rendered inter-token segments: no marker and no
mermaid-container opening inside a segment, and a segment standing before a
further token is nonempty and does not start with a payload character. -/
def segsOk : List (List Char) → Bool
  | [] => true
  | r :: rest =>
    !containsSub markerL r && !containsSub divOpenL r &&
      segWall r rest.isEmpty && segsOk rest

theorem protOut_tokenChain :
    ∀ (blocks : List (List Char × List Char)) (first : List Char),
      protOut first blocks =
        first ++ tokenChain (payloadChainOf blocks (blocks.map Prod.snd)) := by
  intro blocks
  induction blocks with
  | nil => intro first; simp [protOut, payloadChainOf, tokenChain]
  | cons bs rest ih =>
    obtain ⟨body, seg⟩ := bs
    intro first
    have hz : payloadChainOf ((body, seg) :: rest)
        (((body, seg) :: rest).map Prod.snd) =
        (b64EncodeStr (jsTrim body), seg) ::
          payloadChainOf rest (rest.map Prod.snd) := by
      simp [payloadChainOf]
    rw [hz, tokenChain, protOut, ih seg, placeholderOf]
    simp

theorem chainOk_payload :
    ∀ (blocks : List (List Char × List Char)) (rs : List (List Char)),
      rs.length = blocks.length → bodiesOk blocks = true → segsOk rs = true →
      chainOk (payloadChainOf blocks rs) = true := by
  intro blocks
  induction blocks with
  | nil => intro rs _ _ _; simp [payloadChainOf, chainOk]
  | cons bs rest ih =>
    obtain ⟨body, seg⟩ := bs
    intro rs hlen hbodies hsegs
    cases rs with
    | nil => simp at hlen
    | cons r rs' =>
      simp only [bodiesOk, List.all_cons, Bool.and_eq_true] at hbodies
      obtain ⟨hbody, hrest⟩ := hbodies
      simp only [bodyOk, Bool.and_eq_true] at hbody
      obtain ⟨⟨hne, hascii⟩, _⟩ := hbody
      simp only [segsOk, Bool.and_eq_true] at hsegs
      obtain ⟨⟨⟨hmark, _⟩, hwall⟩, hsegs'⟩ := hsegs
      have hlen' : rs'.length = rest.length := by simpa using hlen
      have hascii' : ∀ b ∈ strBytes (jsTrim body), b < 256 := by
        intro b hb
        simp only [strBytes, List.mem_map] at hb
        obtain ⟨c, hc, rfl⟩ := hb
        have := List.all_eq_true.mp hascii c hc
        simp at this
        omega
      have htne : jsTrim body ≠ [] := by simpa using hne
      have hbne : strBytes (jsTrim body) ≠ [] := by
        simpa [strBytes] using htne
      simp only [payloadChainOf, List.map_cons, List.zip_cons_cons, chainOk,
        Bool.and_eq_true]
      refine ⟨⟨⟨⟨?_, ?_⟩, ?_⟩, ?_⟩, ?_⟩
      · simp [b64EncodeStr, List.isEmpty_iff, b64Encode_ne_nil hbne]
      · exact List.all_eq_true.mpr (b64Encode_all_b64 _ hascii')
      · simpa using hmark
      · convert hwall using 2
        rw [Bool.eq_iff_iff]
        simp only [List.isEmpty_iff_length_eq_zero, List.length_zipWith,
          List.length_map]
        omega
      · exact ih rs' hlen' hrest hsegs'

theorem divChainOk_trim :
    ∀ (blocks : List (List Char × List Char)) (rs : List (List Char)),
      bodiesOk blocks = true → segsOk rs = true →
      divChainOk (trimChainOf blocks rs) = true := by
  intro blocks
  induction blocks with
  | nil => intro rs _ _; simp [trimChainOf, divChainOk]
  | cons bs rest ih =>
    obtain ⟨body, seg⟩ := bs
    intro rs hbodies hsegs
    cases rs with
    | nil => simp [trimChainOf, divChainOk]
    | cons r rs' =>
      simp only [bodiesOk, List.all_cons, Bool.and_eq_true] at hbodies
      obtain ⟨hbody, hrest⟩ := hbodies
      simp only [bodyOk, Bool.and_eq_true] at hbody
      obtain ⟨_, hclose⟩ := hbody
      simp only [segsOk, Bool.and_eq_true] at hsegs
      obtain ⟨⟨⟨_, hopen⟩, _⟩, hsegs'⟩ := hsegs
      simp only [trimChainOf, List.map_cons, List.zip_cons_cons, divChainOk,
        Bool.and_eq_true]
      exact ⟨⟨hclose, hopen⟩, ih rs' hrest hsegs'⟩

theorem restoredChain_payload :
    ∀ (blocks : List (List Char × List Char)) (rs : List (List Char)),
      bodiesOk blocks = true →
      restoredChain b64DecodeStr (payloadChainOf blocks rs) =
        divChain (trimChainOf blocks rs) := by
  intro blocks
  induction blocks with
  | nil => intro rs _; simp [payloadChainOf, trimChainOf, restoredChain, divChain]
  | cons bs rest ih =>
    obtain ⟨body, seg⟩ := bs
    intro rs hbodies
    cases rs with
    | nil => simp [payloadChainOf, trimChainOf, restoredChain, divChain]
    | cons r rs' =>
      simp only [bodiesOk, List.all_cons, Bool.and_eq_true] at hbodies
      obtain ⟨hbody, hrest⟩ := hbodies
      simp only [bodyOk, Bool.and_eq_true] at hbody
      obtain ⟨⟨_, hascii⟩, _⟩ := hbody
      have hascii' : ∀ c ∈ jsTrim body, c.toNat < 256 := by
        intro c hc
        have := List.all_eq_true.mp hascii c hc
        simp at this
        omega
      simp only [payloadChainOf, trimChainOf, List.map_cons,
        List.zip_cons_cons, restoredChain, divChain, divOfDec,
        b64Str_roundtrip _ hascii']
      have ihx := ih rs' hrest
      simp only [payloadChainOf, trimChainOf, List.zip] at ihx
      rw [ihx]

/-- **C1** (amended: each container holds the *trimmed* source text of its
block).  For every markdown document `mkDoc first blocks` whose fenced
mermaid blocks are exactly `blocks` (no backtick outside the fences;
well-formed ASCII bodies with nonempty trim), the protector
(`processMermaidDiagrams`) replaces exactly these blocks by placeholder
tokens, setting the diagram flag; and for every rendered HTML that keeps the
placeholder tokens intact while rewriting the plain segments
(`renderedOf r0 blocks rs`, the markdown renderer being an external
library), the restorer (`restoreMermaidDiagrams` with the base64 decoder)
yields `finalOf r0 blocks rs`, whose mermaid containers are exactly
`blocks.length` many, in document order, the i-th holding the trimmed source
of the i-th block. -/
theorem claim_C1_protect_render_restore
    (first r0 : List Char) (blocks : List (List Char × List Char))
    (rs : List (List Char))
    (hfirst : tickFree first = true) (hblocks : blocksOk blocks = true)
    (hbodies : bodiesOk blocks = true) (hlen : rs.length = blocks.length)
    (hr0m : containsSub markerL r0 = false)
    (hr0d : containsSub divOpenL r0 = false)
    (hrs : segsOk rs = true) :
    processMermaidDiagrams (mkDoc first blocks) =
      (protOut first blocks, !blocks.isEmpty) ∧
    protOut first blocks =
      first ++ tokenChain (payloadChainOf blocks (blocks.map Prod.snd)) ∧
    restoreMermaidDiagrams b64DecodeStr (renderedOf r0 blocks rs) =
      finalOf r0 blocks rs ∧
    extractMermaidDivs (finalOf r0 blocks rs) =
      blocks.map fun bs => jsTrim bs.1 := by
  refine ⟨processMermaidDiagrams_mkDoc hfirst hblocks,
    protOut_tokenChain blocks first, ?_, ?_⟩
  · unfold renderedOf finalOf
    rw [restoreMermaidDiagrams_chain _ hr0m
      (chainOk_payload blocks rs hlen hbodies hrs)]
    rw [restoredChain_payload blocks rs hbodies]
  · unfold finalOf
    rw [extractMermaidDivs_chain hr0d (divChainOk_trim blocks rs hbodies hrs)]
    unfold trimChainOf
    rw [List.map_fst_zip]
    simp [hlen]

theorem claim_C1_witness :
    extractMermaidDivs (finalOf (("<h1>T</h1>\n<p>").toList)
        [((("graph TD\n").toList), ("\nx\n").toList)] [("</p>").toList]) =
      [("graph TD").toList] := by
  have h := claim_C1_protect_render_restore (("# T\n").toList)
    (("<h1>T</h1>\n<p>").toList)
    [((("graph TD\n").toList), ("\nx\n").toList)] [("</p>").toList]
    (by decide) (by decide) (by decide) (by decide) (by decide) (by decide)
    (by decide)
  exact h.2.2.2.trans (by decide)

/-- **C1, counterexample to the claim as stated**: for the input
```` ```mermaid\ngraph TD\n``` ````, whose single diagram block has source
text `"graph TD\n"`, the protect-then-restore pipeline produces a container
holding `"graph TD"` — the *trimmed* source — and not the source text
itself. -/
theorem claim_C1_counterexample :
    extractMermaidDivs (restoreMermaidDiagrams b64DecodeStr
      (processMermaidDiagrams (("```mermaid\ngraph TD\n```").toList)).1) =
      [("graph TD").toList] ∧
    ("graph TD").toList ≠ ("graph TD\n").toList := by
  refine ⟨by decide, by decide⟩

/-- **C10**: the protector base64-encodes the *trimmed* diagram body, so
protect-then-restore recovers `jsTrim body` as the container text for every
block with well-formed nonempty-trim body — and a body that differs from its
trimmed form (here `"graph TD\n"`) is therefore not recovered
character-for-character. -/
theorem claim_C10_trim_not_identity :
    (∀ body : List Char, tickFree body = true → bodyOk body = true →
      restoreMermaidDiagrams b64DecodeStr
        (processMermaidDiagrams (mkDoc [] [(body, [])])).1 =
        divOpenL ++ jsTrim body ++ divCloseL) ∧
    restoreMermaidDiagrams b64DecodeStr
      (processMermaidDiagrams (("```mermaid\ngraph TD\n```").toList)).1 =
      ("<div class=\"mermaid\">graph TD</div>").toList ∧
    ("<div class=\"mermaid\">graph TD</div>").toList ≠
      ("<div class=\"mermaid\">graph TD\n</div>").toList := by
  refine ⟨?_, by decide, by decide⟩
  intro body hbody hok
  have h1 := @processMermaidDiagrams_mkDoc [] [(body, [])]
    rfl (by simp only [blocksOk, Bool.and_eq_true]; exact ⟨⟨hbody, by decide⟩, trivial⟩)
  rw [h1]
  have h2 := protOut_tokenChain [(body, [])] []
  simp only [List.map_cons, List.map_nil] at h2
  rw [h2, List.nil_append]
  have h3 : restoreMermaidDiagrams b64DecodeStr
      ([] ++ tokenChain (payloadChainOf [(body, [])] [[]])) =
      [] ++ restoredChain b64DecodeStr (payloadChainOf [(body, [])] [[]]) :=
    restoreMermaidDiagrams_chain b64DecodeStr (by decide)
      (chainOk_payload [(body, [])] [[]] rfl
        (by simp [bodiesOk, hok]) (by decide))
  rw [List.nil_append] at h3
  rw [h3, restoredChain_payload [(body, [])] [[]] (by simp [bodiesOk, hok])]
  simp [trimChainOf, divChain]

theorem claim_C10_witness :
    restoreMermaidDiagrams b64DecodeStr
      (processMermaidDiagrams (mkDoc [] [((("graph TD\n").toList), [])])).1 =
      divOpenL ++ jsTrim (("graph TD\n").toList) ++ divCloseL :=
  claim_C10_trim_not_identity.1 (("graph TD\n").toList) (by decide) (by decide)

/-- **C9**: for every HTML text of token-chain shape and every decoder, the
restorer substitutes each token independently: a decoding failure (`none`,
modelling a thrown exception) on one token yields the error-marker container
for that token and leaves every other substitution unaffected; the restorer
itself is a total function and never fails as a whole. -/
theorem claim_C9_decode_isolation
    (dec : List Char → Option (List Char))
    (chain : List (List Char × List Char)) (r0 : List Char)
    (h0 : containsSub markerL r0 = false) (hchain : chainOk chain = true) :
    restoreMermaidDiagrams dec (r0 ++ tokenChain chain) =
      r0 ++ restoredChain dec chain ∧
    (∀ p, dec p = none → divOfDec dec p = errDivL) ∧
    (∀ p code, dec p = some code →
      divOfDec dec p = divOpenL ++ code ++ divCloseL) := by
  refine ⟨restoreMermaidDiagrams_chain dec h0 hchain, ?_, ?_⟩
  · intro p hp
    simp [divOfDec, hp]
  · intro p code hp
    simp [divOfDec, hp]

theorem claim_C9_witness :
    restoreMermaidDiagrams
        (fun p => if p = ("AAAA").toList then none else b64DecodeStr p)
        (("<p>").toList ++ tokenChain
          [(("AAAA").toList, ("<p>").toList), (("QQ==").toList, [])]) =
      ("<p><div class=\"mermaid-error\">Error processing diagram</div><p><div class=\"mermaid\">A</div>").toList := by
  have h := claim_C9_decode_isolation
    (fun p => if p = ("AAAA").toList then none else b64DecodeStr p)
    [(("AAAA").toList, ("<p>").toList), (("QQ==").toList, [])]
    (("<p>").toList) (by decide) (by decide)
  exact h.1.trans (by decide)

/-- The render delay chosen by `convertToPdf` (src/index.ts 256 and 265-267):
the base value 5000 ms, raised to 10000 ms exactly when
`processMermaidDiagrams` reports mermaid diagrams in the markdown. -/
def renderDelayFor (markdown : List Char) : Nat :=
  if (processMermaidDiagrams markdown).2 then 10000 else 5000

/-- **C4**: the render delay passed to the PDF render step is 10000 ms iff
the markdown has at least one fenced mermaid block (the
`hasMermaidDiagrams` flag), and 5000 ms otherwise; on a structured document
the flag is set exactly when the block list is nonempty. -/
theorem claim_C4_render_delay :
    (∀ md : List Char,
      (renderDelayFor md = 10000 ↔ (processMermaidDiagrams md).2 = true) ∧
      (renderDelayFor md = 5000 ↔ (processMermaidDiagrams md).2 = false)) ∧
    ∀ (first : List Char) (blocks : List (List Char × List Char)),
      tickFree first = true → blocksOk blocks = true →
      renderDelayFor (mkDoc first blocks) =
        if blocks.isEmpty then 5000 else 10000 := by
  constructor
  · intro md
    unfold renderDelayFor
    cases h : (processMermaidDiagrams md).2 <;> simp [h]
  · intro first blocks h1 h2
    unfold renderDelayFor
    rw [processMermaidDiagrams_mkDoc h1 h2]
    cases blocks <;> simp [List.isEmpty]

theorem claim_C4_witness :
    renderDelayFor (mkDoc [] [((("graph TD\n").toList), [])]) = 10000 ∧
    renderDelayFor (("# no diagrams here").toList) = 5000 := by
  constructor
  · exact (claim_C4_render_delay.2 [] [((("graph TD\n").toList), [])]
      (by decide) (by decide)).trans (by decide)
  · decide

theorem endsWithL_append_self (p x : List Char) :
    endsWithL p (x ++ p) = true := by
  unfold endsWithL
  rw [List.reverse_append]
  exact startsWithL_append_self _ _

/-- The output-filename normalisation of the call handler
(src/index.ts 144-147): keep the name if its lowercased form already ends
in ".pdf", otherwise append the lowercase suffix ".pdf". -/
def normalizeFilename (outputFilename : List Char) : List Char :=
  if endsWithL ((".pdf").toList) (toLowerL outputFilename) then outputFilename
  else outputFilename ++ (".pdf").toList

/-- **C3**: the normalised output filename always ends in ".pdf" under the
case-insensitive check; the suffix is appended exactly when the check
fails — `"report"` becomes `"report.pdf"`, `"REPORT.PDF"` is unchanged. -/
theorem claim_C3_pdf_suffix :
    (∀ f : List Char,
      endsWithL ((".pdf").toList) (toLowerL (normalizeFilename f)) = true ∧
      (endsWithL ((".pdf").toList) (toLowerL f) = true →
        normalizeFilename f = f) ∧
      (endsWithL ((".pdf").toList) (toLowerL f) = false →
        normalizeFilename f = f ++ (".pdf").toList)) ∧
    normalizeFilename (("report").toList) = ("report.pdf").toList ∧
    normalizeFilename (("REPORT.PDF").toList) = ("REPORT.PDF").toList := by
  refine ⟨?_, by decide, by decide⟩
  intro f
  cases h : endsWithL ((".pdf").toList) (toLowerL f) with
  | true =>
    have hn : normalizeFilename f = f := by
      unfold normalizeFilename
      rw [if_pos h]
    exact ⟨by rw [hn]; exact h, fun _ => hn, fun hf => absurd hf (by decide)⟩
  | false =>
    have hn : normalizeFilename f = f ++ (".pdf").toList := by
      unfold normalizeFilename
      rw [if_neg (by rw [h]; decide)]
    have hlow : toLowerL (f ++ (".pdf").toList) =
        toLowerL f ++ (".pdf").toList := by
      unfold toLowerL
      rw [List.map_append]
      have h2 : List.map Char.toLower ((".pdf").toList) = (".pdf").toList := by
        decide
      rw [h2]
    refine ⟨?_, fun hf => absurd hf (by decide), fun _ => hn⟩
    rw [hn, hlow]
    exact endsWithL_append_self _ _

theorem claim_C3_witness :
    endsWithL ((".pdf").toList)
        (toLowerL (normalizeFilename (("report").toList))) = true ∧
    normalizeFilename (("Doc.PDF").toList) = ("Doc.PDF").toList :=
  ⟨(claim_C3_pdf_suffix.1 (("report").toList)).1,
   (claim_C3_pdf_suffix.1 (("Doc.PDF").toList)).2.1 (by decide)⟩

/-- The result value the call handler hands back to the protocol layer:
text content plus the error flag (src/index.ts 163-181). -/
structure CallToolResult where
  text : List Char
  isErr : Bool

/-- The try/catch of the call handler around `convertToPdf`
(src/index.ts 152-182), the pipeline outcome modelled as `Except`: a
success carries the absolute output path, an exception carries its message.
The catch converts any exception into a flagged text result; the handler
returns in both cases. -/
def handleCallOutcome (outcome : Except (List Char) (List Char)) :
    CallToolResult :=
  match outcome with
  | Except.ok absolutePath =>
    ⟨("Successfully created PDF at: ").toList ++ absolutePath, false⟩
  | Except.error msg =>
    ⟨("Failed to create PDF: ").toList ++ msg, true⟩

/-- **C7**: every error raised inside the conversion pipeline is caught and
converted into a non-throwing result flagged as an error whose text is
"Failed to create PDF: " followed by the message; a success is an unflagged
success message; the handler is a total function of the outcome, so no
pipeline exception propagates out of it. -/
theorem claim_C7_error_capture :
    (∀ msg : List Char, handleCallOutcome (Except.error msg) =
      ⟨("Failed to create PDF: ").toList ++ msg, true⟩) ∧
    (∀ path : List Char, handleCallOutcome (Except.ok path) =
      ⟨("Successfully created PDF at: ").toList ++ path, false⟩) ∧
    ∀ outcome : Except (List Char) (List Char),
      (handleCallOutcome outcome).isErr = true ↔
        ∃ msg, outcome = Except.error msg := by
  refine ⟨fun msg => rfl, fun path => rfl, ?_⟩
  intro outcome
  cases outcome with
  | ok path => simp [handleCallOutcome]
  | error msg => simp [handleCallOutcome]

/-- The Remarkable `highlight` callback of `convertToPdf`
(src/index.ts 271-281).  The highlight.js calls are external: `getLang` is
`hljs.getLanguage` (recognition test), `hlLang` is `hljs.highlight` for a
named language and `hlAuto` is `hljs.highlightAuto`; a thrown exception,
which the source catches with an empty `catch`, is modelled as `none` and
falls through to the next attempt.  The callback is total by construction:
every failure path ends in the empty string. -/
def highlightFn (getLang : List Char → Bool)
    (hlLang : List Char → List Char → Option (List Char))
    (hlAuto : List Char → Option (List Char))
    (str language : List Char) : List Char :=
  match (if !language.isEmpty && getLang language then hlLang language str
      else none) with
  | some v => v
  | none =>
    match hlAuto str with
    | some v => v
    | none => []

/-- **C6**: the highlighter is total and follows the fallback chain: a
recognised nonempty language tag is highlighted with that language when the
attempt succeeds; on its failure, or for a missing or unrecognised tag,
automatic detection is attempted; if that fails too the result is the empty
string — so a highlighting failure never aborts rendering. -/
theorem claim_C6_highlight_fallback :
    ∀ (getLang : List Char → Bool)
      (hlLang : List Char → List Char → Option (List Char))
      (hlAuto : List Char → Option (List Char)) (str language : List Char),
      (∀ v, language.isEmpty = false → getLang language = true →
        hlLang language str = some v →
        highlightFn getLang hlLang hlAuto str language = v) ∧
      ((language.isEmpty = true ∨ getLang language = false ∨
          hlLang language str = none) →
        ∀ w, hlAuto str = some w →
          highlightFn getLang hlLang hlAuto str language = w) ∧
      ((language.isEmpty = true ∨ getLang language = false ∨
          hlLang language str = none) → hlAuto str = none →
        highlightFn getLang hlLang hlAuto str language = []) := by
  intro gl hl ha str lang
  refine ⟨?_, ?_, ?_⟩
  · intro v h1 h2 h3
    simp [highlightFn, h1, h2, h3]
  · intro hcond w hw
    rcases hcond with h | h | h
    · simp [highlightFn, h, hw]
    · simp [highlightFn, h, hw]
    · cases hc : (!lang.isEmpty && gl lang) <;>
        simp [highlightFn, hc, h, hw]
  · intro hcond hna
    rcases hcond with h | h | h
    · simp [highlightFn, h, hna]
    · simp [highlightFn, h, hna]
    · cases hc : (!lang.isEmpty && gl lang) <;>
        simp [highlightFn, hc, h, hna]

theorem claim_C6_witness :
    highlightFn (fun l => l = ("js").toList)
      (fun _ s => some (("<span class=\"hljs\">").toList ++ s))
      (fun _ => none) (("x = 1").toList) (("js").toList) =
      ("<span class=\"hljs\">").toList ++ ("x = 1").toList :=
  (claim_C6_highlight_fallback (fun l => l = ("js").toList)
    (fun _ s => some (("<span class=\"hljs\">").toList ++ s))
    (fun _ => none) (("x = 1").toList) (("js").toList)).1 _
    (by decide) (by decide) rfl

/-- The call parameters handed to `convertToPdf` after defaulting
(src/index.ts 128-142, 153-160). -/
structure ConvertArgs where
  markdown : List Char
  outputFilename : List Char
  paperFormat : List Char
  paperOrientation : List Char
  paperBorder : List Char
  watermark : List Char

/-- The ASCII watermark characters of the declared schema pattern
`^[A-Z0-9\s-]+$` (src/index.ts 106). -/
def isWatermarkChar (c : Char) : Bool :=
  ('A' ≤ c && c ≤ 'Z') || c.isDigit || c = ' ' || c = '\t' || c = '\n' ||
    c = '\r' || c = '-'

/-- Modelled from the spec: the input-schema validation of the protocol
layer.  The tool declares `watermark` with `maxLength: 15` and pattern
`^[A-Z0-9\s-]+$` (src/index.ts 102-107), and the spec (§7(a), §8) states
that a request violating the schema is rejected by the protocol layer
before the conversion pipeline runs; that enforcing code is not among this
repository's sources.  It is modelled here: a provided watermark longer
than 15 characters, empty, or failing the pattern yields a validation
error; only a validated request is dispatched, the returned `ConvertArgs`
recording the parameters with which `convertToPdf` is invoked; an absent
watermark defaults to the empty string without pattern checking. -/
def dispatchCreatePdf (markdown : List Char) (watermark : Option (List Char)) :
    Except (List Char) ConvertArgs :=
  match watermark with
  | none =>
    Except.ok ⟨markdown, ("output.pdf").toList, ("letter").toList,
      ("portrait").toList, ("2cm").toList, []⟩
  | some w =>
    if w.length ≤ 15 ∧ w.isEmpty = false ∧ w.all isWatermarkChar = true then
      Except.ok ⟨markdown, ("output.pdf").toList, ("letter").toList,
        ("portrait").toList, ("2cm").toList, w⟩
    else Except.error (("InputValidationError: watermark").toList)

/-- **C8**: a request whose watermark is longer than 15 characters is
rejected at input validation and the conversion pipeline is never invoked
with it: the dispatch is the validation error and is not `ok` for any
argument record. -/
theorem claim_C8_watermark_rejected (markdown w : List Char)
    (hw : 15 < w.length) :
    dispatchCreatePdf markdown (some w) =
      Except.error (("InputValidationError: watermark").toList) ∧
    ∀ args : ConvertArgs,
      dispatchCreatePdf markdown (some w) ≠ Except.ok args := by
  have hneg : ¬(w.length ≤ 15 ∧ w.isEmpty = false ∧
      w.all isWatermarkChar = true) := fun hc => by omega
  have hres : dispatchCreatePdf markdown (some w) =
      Except.error (("InputValidationError: watermark").toList) := by
    show (if w.length ≤ 15 ∧ w.isEmpty = false ∧ w.all isWatermarkChar = true
        then Except.ok (⟨markdown, ("output.pdf").toList, ("letter").toList,
          ("portrait").toList, ("2cm").toList, w⟩ : ConvertArgs)
        else Except.error (("InputValidationError: watermark").toList)) =
      Except.error (("InputValidationError: watermark").toList)
    rw [if_neg hneg]
  exact ⟨hres, fun args hcontra =>
    Except.noConfusion (hres.symm.trans hcontra)⟩

theorem claim_C8_witness :
    dispatchCreatePdf (("# hi").toList)
        (some (("toolongwatermarktext").toList)) =
      Except.error (("InputValidationError: watermark").toList) :=
  (claim_C8_watermark_rejected (("# hi").toList)
    (("toolongwatermarktext").toList) (by decide)).1

/-! ## The File Path Resolver (`getIncrementalPath`, src/index.ts 186-199)

The source splits the requested path with `path.dirname` / `path.extname` /
`path.basename`, then loops
`while (fs.existsSync(newPath)) { newPath = path.join(dir, name-counter+ext); counter++ }`.
The filesystem is modelled as the finite list `fs` of existing paths; the
loop gets a fuel of `fs.length + 2`, which the injectivity of the candidate
paths proves sufficient (the fuel-exhausted branch is never reached). -/

/-- Decimal digit characters (the JS number-to-string interpolation). -/
def digitChar : Nat → Char
  | 0 => '0' | 1 => '1' | 2 => '2' | 3 => '3' | 4 => '4'
  | 5 => '5' | 6 => '6' | 7 => '7' | 8 => '8' | _ => '9'

def digAux : Nat → Nat → List Char
  | 0, _ => []
  | fuel + 1, n =>
    if n = 0 then [] else digAux fuel (n / 10) ++ [digitChar (n % 10)]

/-- Decimal rendering of a natural number (JS `${counter}`). -/
def natToStr (n : Nat) : List Char :=
  if n = 0 then ['0'] else digAux n n

/-- Decimal reading, a left inverse of `natToStr`. -/
def strVal (s : List Char) : Nat :=
  s.foldl (fun a c => a * 10 + (c.toNat - 48)) 0

theorem digitChar_toNat : ∀ d, d < 10 → (digitChar d).toNat = 48 + d := by
  decide

theorem strVal_append_digit (a : List Char) (c : Char) :
    strVal (a ++ [c]) = strVal a * 10 + (c.toNat - 48) := by
  unfold strVal
  rw [List.foldl_append]
  rfl

theorem digAux_val : ∀ fuel n, n ≤ fuel → strVal (digAux fuel n) = n := by
  intro fuel
  induction fuel with
  | zero =>
    intro n hn
    have : n = 0 := by omega
    subst this
    rfl
  | succ f ih =>
    intro n hn
    by_cases h0 : n = 0
    · subst h0; simp [digAux, strVal]
    · have hdiv : n / 10 ≤ f := by
        have := Nat.div_lt_self (by omega : 0 < n) (by omega : 1 < 10)
        omega
      have hmod : n % 10 < 10 := Nat.mod_lt _ (by omega)
      simp only [digAux, h0, if_false]
      rw [strVal_append_digit, ih (n / 10) hdiv, digitChar_toNat _ hmod]
      omega

theorem strVal_natToStr (n : Nat) : strVal (natToStr n) = n := by
  unfold natToStr
  by_cases h : n = 0
  · subst h; rfl
  · simp only [h, if_false]
    exact digAux_val n n (Nat.le_refl n)

theorem natToStr_injective : Function.Injective natToStr := by
  intro a b h
  rw [← strVal_natToStr a, ← strVal_natToStr b, h]

/-- Split at the last occurrence of a character: `some (before, after)` with
`s = before ++ c :: after` for the last occurrence of `c`. -/
def splitAtLastChar (c : Char) (s : List Char) :
    Option (List Char × List Char) :=
  match splitAtSub [c] s.reverse with
  | none => none
  | some (a, b) => some (b.reverse, a.reverse)

/-- Node `path.dirname` (POSIX, for already-normalised paths). -/
def jsDirname (p : List Char) : List Char :=
  match splitAtLastChar '/' p with
  | none => (".").toList
  | some ([], _) => ("/").toList
  | some (d, _) => d

def jsBasenameRaw (p : List Char) : List Char :=
  match splitAtLastChar '/' p with
  | none => p
  | some (_, b) => b

/-- Node `path.extname`: from the last dot of the basename, empty for a
leading dot or no dot. -/
def jsExtname (p : List Char) : List Char :=
  match splitAtLastChar '.' (jsBasenameRaw p) with
  | none => []
  | some ([], _) => []
  | some (_, e) => '.' :: e

/-- Node `path.basename(p, ext)`: the basename with the suffix `ext`
stripped when it is a proper suffix. -/
def jsBasename (p ext : List Char) : List Char :=
  if ext ≠ [] ∧ ext ≠ jsBasenameRaw p ∧ endsWithL ext (jsBasenameRaw p) = true
  then (jsBasenameRaw p).take ((jsBasenameRaw p).length - ext.length)
  else jsBasenameRaw p

/-- Node `path.join` of a directory and a file name (POSIX, normalised
inputs). -/
def jsJoin (dir file : List Char) : List Char :=
  if dir = (".").toList then file
  else if dir = ("/").toList then '/' :: file
  else dir ++ '/' :: file

/-- The candidate path of loop iteration `k`
(src/index.ts 194: ``path.join(dir, `${name}-${counter}${ext}`)``). -/
def mkNumPath (dir name ext : List Char) (k : Nat) : List Char :=
  jsJoin dir (name ++ '-' :: (natToStr k ++ ext))

def giAux (fs : List (List Char)) (mk : Nat → List Char) :
    Nat → Nat → List Char → List Char
  | 0, _, cur => cur
  | fuel + 1, counter, cur =>
    if cur ∈ fs then giAux fs mk fuel (counter + 1) (mk counter) else cur

def getIncrementalPath (fs : List (List Char)) (basePath : List Char) :
    List Char :=
  giAux fs
    (mkNumPath (jsDirname basePath)
      (jsBasename basePath (jsExtname basePath)) (jsExtname basePath))
    (fs.length + 2) 1 basePath

theorem giAux_stop {fs : List (List Char)} {mk : Nat → List Char}
    {fuel counter : Nat} {cur : List Char} (h : cur ∉ fs) :
    giAux fs mk fuel counter cur = cur := by
  cases fuel <;> simp [giAux, h]

theorem jsJoin_inj_right (dir : List Char) {f1 f2 : List Char}
    (h : jsJoin dir f1 = jsJoin dir f2) : f1 = f2 := by
  unfold jsJoin at h
  split_ifs at h
  · exact h
  · injection h
  · injection List.append_cancel_left h

theorem mkNumPath_injective (dir name ext : List Char) :
    Function.Injective (mkNumPath dir name ext) := by
  intro k1 k2 h
  unfold mkNumPath at h
  have h1 := jsJoin_inj_right dir h
  have h2 := List.append_cancel_left h1
  injection h2 with _ h3
  have h4 := List.append_cancel_right h3
  exact natToStr_injective h4

theorem giAux_not_mem (fs : List (List Char)) (mk : Nat → List Char) :
    ∀ (fuel counter : Nat) (cur : List Char),
      (cur ∉ fs ∨ ∃ i, i < fuel ∧ mk (counter + i) ∉ fs) →
      giAux fs mk fuel counter cur ∉ fs := by
  intro fuel
  induction fuel with
  | zero =>
    intro counter cur h
    rcases h with h | ⟨i, hi, _⟩
    · simpa [giAux] using h
    · omega
  | succ f ih =>
    intro counter cur h
    by_cases hcur : cur ∈ fs
    · simp only [giAux, hcur, if_pos]
      rcases h with h | ⟨i, hi, hfree⟩
      · exact absurd hcur h
      · cases i with
        | zero =>
          exact ih (counter + 1) (mk counter) (Or.inl (by simpa using hfree))
        | succ i' =>
          refine ih (counter + 1) (mk counter) (Or.inr ⟨i', by omega, ?_⟩)
          have : counter + 1 + i' = counter + (i' + 1) := by omega
          rw [this]
          exact hfree
    · rw [giAux_stop hcur]
      exact hcur

theorem giAux_first_free (fs : List (List Char)) (mk : Nat → List Char) :
    ∀ (fuel counter : Nat) (cur : List Char),
      cur ∈ fs → (∃ i, i < fuel ∧ mk (counter + i) ∉ fs) →
      ∃ k, counter ≤ k ∧ giAux fs mk fuel counter cur = mk k ∧ mk k ∉ fs ∧
        ∀ j, counter ≤ j → j < k → mk j ∈ fs := by
  intro fuel
  induction fuel with
  | zero =>
    intro counter cur _ ⟨i, hi, _⟩
    omega
  | succ f ih =>
    intro counter cur hcur ⟨i, hi, hfree⟩
    simp only [giAux, hcur, if_pos]
    by_cases hmk : mk counter ∈ fs
    · cases i with
      | zero => exact absurd (by simpa using hfree) (by simp [hmk])
      | succ i' =>
        have hfree' : mk (counter + 1 + i') ∉ fs := by
          have : counter + 1 + i' = counter + (i' + 1) := by omega
          rw [this]
          exact hfree
        obtain ⟨k, hk1, hk2, hk3, hk4⟩ :=
          ih (counter + 1) (mk counter) hmk ⟨i', by omega, hfree'⟩
        refine ⟨k, by omega, hk2, hk3, ?_⟩
        intro j hj1 hj2
        by_cases hje : j = counter
        · subst hje; exact hmk
        · exact hk4 j (by omega) hj2
    · refine ⟨counter, Nat.le_refl _, giAux_stop hmk, hmk, ?_⟩
      intro j hj1 hj2
      omega

theorem exists_free_index (fs : List (List Char)) (mk : Nat → List Char)
    (hinj : Function.Injective mk) :
    ∃ i, i < fs.length + 1 ∧ mk (1 + i) ∉ fs := by
  by_contra hall
  push_neg at hall
  have hsub : ∀ i < fs.length + 1, mk (1 + i) ∈ fs := hall
  set L : List (List Char) :=
    (List.range (fs.length + 1)).map fun i => mk (1 + i) with hL
  have hnodup : L.Nodup := by
    refine List.Nodup.map ?_ (List.nodup_range _)
    intro a b hab
    have := hinj hab
    omega
  have hLsub : ∀ x ∈ L, x ∈ fs := by
    intro x hx
    rw [hL] at hx
    simp only [List.mem_map, List.mem_range] at hx
    obtain ⟨i, hi, rfl⟩ := hx
    exact hsub i hi
  have hcard1 : L.toFinset.card = fs.length + 1 := by
    rw [List.toFinset_card_of_nodup hnodup, hL]
    simp
  have hcard2 : L.toFinset.card ≤ fs.toFinset.card := by
    apply Finset.card_le_card
    intro x hx
    rw [List.mem_toFinset] at hx ⊢
    exact hLsub x hx
  have hcard3 : fs.toFinset.card ≤ fs.length := List.toFinset_card_le fs
  omega

/-- **C2**: `getIncrementalPath` never returns the name of an existing file;
a requested path that does not exist is returned unchanged; a requested path
that exists yields the candidate `name-k.ext` for the least free counter
`k ≥ 1` — each smaller counter's candidate exists, so under repeated
collisions the suffix grows monotonically ("output.pdf" existing gives
"output-1.pdf"; that existing too gives "output-2.pdf"). -/
theorem claim_C2_incremental_path (fs : List (List Char))
    (basePath : List Char) :
    getIncrementalPath fs basePath ∉ fs ∧
    (basePath ∉ fs → getIncrementalPath fs basePath = basePath) ∧
    (basePath ∈ fs → ∃ k, 1 ≤ k ∧
      getIncrementalPath fs basePath =
        mkNumPath (jsDirname basePath)
          (jsBasename basePath (jsExtname basePath)) (jsExtname basePath) k ∧
      mkNumPath (jsDirname basePath)
        (jsBasename basePath (jsExtname basePath)) (jsExtname basePath) k
        ∉ fs ∧
      ∀ j, 1 ≤ j → j < k →
        mkNumPath (jsDirname basePath)
          (jsBasename basePath (jsExtname basePath)) (jsExtname basePath) j
          ∈ fs) ∧
    getIncrementalPath [("output.pdf").toList] (("output.pdf").toList) =
      ("output-1.pdf").toList ∧
    getIncrementalPath [("output.pdf").toList, ("output-1.pdf").toList]
      (("output.pdf").toList) = ("output-2.pdf").toList := by
  set mk : Nat → List Char :=
    mkNumPath (jsDirname basePath)
      (jsBasename basePath (jsExtname basePath)) (jsExtname basePath)
    with hmk
  have hinj : Function.Injective mk := mkNumPath_injective _ _ _
  obtain ⟨i, hi, hfree⟩ := exists_free_index fs mk hinj
  have hex : ∃ i, i < fs.length + 2 ∧ mk (1 + i) ∉ fs :=
    ⟨i, by omega, hfree⟩
  refine ⟨?_, ?_, ?_, by decide, by decide⟩
  · exact giAux_not_mem fs mk (fs.length + 2) 1 basePath (Or.inr hex)
  · intro hbase
    exact giAux_stop hbase
  · intro hbase
    exact giAux_first_free fs mk (fs.length + 2) 1 basePath hbase hex

theorem claim_C2_witness :
    getIncrementalPath [("output.pdf").toList] (("output.pdf").toList)
      ∉ [("output.pdf").toList] ∧
    getIncrementalPath [("x").toList] (("report.pdf").toList) =
      ("report.pdf").toList :=
  ⟨(claim_C2_incremental_path [("output.pdf").toList]
      (("output.pdf").toList)).1,
   (claim_C2_incremental_path [("x").toList] (("report.pdf").toList)).2.1
      (by decide)⟩


/-! ## The Document Composer (`convertToPdf`, src/index.ts 292-396)

The composed HTML document is the template literal of the source with its
interpolation points — paper format/orientation, the format-conditional page
box sizes, the conditional mermaid script, the rendered content and the
conditional watermark overlay — made explicit as concatenation.  Literal
braces of the CSS/JS text are written `\x7b`/`\x7d`. -/

def wmOpenL : List Char := ("<div class=\"watermark\">").toList

def pageSizeW (paperFormat : List Char) : List Char :=
  if paperFormat = ("letter").toList then ("8.5in").toList
  else ("210mm").toList

def pageSizeH (paperFormat : List Char) : List Char :=
  if paperFormat = ("letter").toList then ("11in").toList
  else ("297mm").toList

/-- The mermaid initialisation script block (src/index.ts 292-326), injected
when the document has diagrams. -/
def mermaidScriptL : List Char :=
  ("\n      <script src=\"https://cdn.jsdelivr.net/npm/mermaid@10.6.0/dist/mermaid.min.js\"></script>\n      <script>\n        // Initialize mermaid with specific configuration for PDF rendering\n        document.addEventListener('DOMContentLoaded', function() \x7b\n          try \x7b\n            // Initialize mermaid\n            mermaid.initialize(\x7b\n              startOnLoad: true,\n              theme: 'default',\n              securityLevel: 'loose',\n              flowchart: \x7b \n                useMaxWidth: false, \n                htmlLabels: true \n              \x7d\n            \x7d);\n            \n            // Let puppeteer know when mermaid is done rendering\n            window.mermaidRendered = false;\n            mermaid.run().then(() => \x7b\n              window.mermaidRendered = true;\n              document.dispatchEvent(new CustomEvent('mermaid-rendered'));\n              console.log('Mermaid diagrams rendered successfully');\n            \x7d).catch(err => \x7b\n              console.error('Mermaid rendering error:', err);\n              window.mermaidRendered = true; // Still mark as rendered to avoid hanging\n              document.dispatchEvent(new CustomEvent('mermaid-error'));\n            \x7d);\n          \x7d catch (error) \x7b\n            console.error('Mermaid initialization error:', error);\n            window.mermaidRendered = true; // Still mark as rendered to avoid hanging\n          \x7d\n        \x7d);\n      </script>\n      ").toList

def mermaidScriptFor (hasMermaidDiagrams : Bool) : List Char :=
  if hasMermaidDiagrams then mermaidScriptL else []

/-- The part of the composed document before the rendered content
(src/index.ts 329-390). -/
def composeBefore (paperFormat paperOrientation : List Char)
    (hasMermaidDiagrams : Bool) : List Char :=
  ("\n<!DOCTYPE html>\n<html>\n<head>\n  <meta charset=\"utf-8\">\n  <style>\n    @page \x7b\n      margin: 20px;\n      size: ").toList ++
  paperFormat ++ (" ").toList ++ paperOrientation ++
  (";\n    \x7d\n    html, body \x7b\n      margin: 0;\n      padding: 0;\n      width: 100%;\n      height: 100%;\n    \x7d\n    .page \x7b\n      position: relative;\n      width: ").toList ++
  pageSizeW paperFormat ++
  (";\n      height: ").toList ++
  pageSizeH paperFormat ++
  (";\n      margin: 0;\n      padding: 20px;\n      box-sizing: border-box;\n    \x7d\n    .content \x7b\n      position: relative;\n      z-index: 1;\n    \x7d\n    .watermark \x7b\n      position: absolute;\n      left: 0;\n      top: 0;\n      right: 0;\n      bottom: 0;\n      display: flex;\n      justify-content: center;\n      align-items: center;\n      font-size: calc(").toList ++
  pageSizeW paperFormat ++
  (" * 0.14);\n      color: rgba(0, 0, 0, 0.15);\n      font-family: Arial, sans-serif;\n      white-space: nowrap;\n      pointer-events: none;\n      z-index: 0;\n      transform: rotate(-45deg);\n    \x7d\n    /* Mermaid styling */\n    .mermaid \x7b\n      text-align: center;\n      margin: 20px 0;\n    \x7d\n    .mermaid-error \x7b\n      color: red;\n      border: 1px solid red;\n      padding: 10px;\n      margin: 10px 0;\n    \x7d\n  </style>\n  ").toList ++
  mermaidScriptFor hasMermaidDiagrams ++
  ("\n</head>\n<body>\n  <div class=\"page\">\n    <div class=\"content\">\n      ").toList

def composeAfterL : List Char :=
  ("\n  </div>\n</body>\n</html>").toList

/-- The composed HTML document of `convertToPdf` (src/index.ts 329-396):
head and page box, the rendered content, and — for a truthy (nonempty)
watermark — the single watermark overlay `<div class="watermark">…</div>`. -/
def contentCloseL : List Char :=
  ("\n    </div>\n    ").toList

def composeHtml (htmlContent paperFormat paperOrientation watermark : List Char)
    (hasMermaidDiagrams : Bool) : List Char :=
  composeBefore paperFormat paperOrientation hasMermaidDiagrams ++
  htmlContent ++
  contentCloseL ++
  (if watermark.isEmpty then []
    else wmOpenL ++ watermark ++ divCloseL) ++
  composeAfterL

/-- Number of (non-overlapping, leftmost-first) occurrences of `pat`. -/
def csAux (pat : List Char) : Nat → List Char → Nat
  | 0, _ => 0
  | fuel + 1, s =>
    match splitAtSub pat s with
    | none => 0
    | some (_, rest) => csAux pat fuel rest + 1

def countSub (pat s : List Char) : Nat :=
  csAux pat s.length s

/-- The text between the first watermark-div opening and the following
closing tag. -/
def wmTextOf (doc : List Char) : Option (List Char) :=
  match splitAtSub wmOpenL doc with
  | none => none
  | some (_, r) =>
    match splitAtSub divCloseL r with
    | none => none
    | some (t, _) => some t

theorem csAux_zero {pat s : List Char} (h : splitAtSub pat s = none) :
    ∀ fuel, csAux pat fuel s = 0 := by
  intro fuel
  cases fuel <;> simp [csAux, h]

theorem countSub_zero {pat s : List Char} (h : containsSub pat s = false) :
    countSub pat s = 0 :=
  csAux_zero ((containsSub_eq_false_iff _ _).mp h) _

theorem countSub_seam {pat x y : List Char} (hbf : borderFree pat)
    (hpat : pat ≠ []) (hx : splitAtSub pat x = none)
    (hy : containsSub pat y = false) :
    countSub pat (x ++ pat ++ y) = 1 := by
  unfold countSub
  have hsplit := @splitAtSub_factor_border pat x y hbf hx
  have hplen : 1 ≤ pat.length := by
    cases pat with
    | nil => exact absurd rfl hpat
    | cons c cs => simp
  cases hflen : (x ++ pat ++ y).length with
  | zero =>
    exfalso
    simp only [List.length_append] at hflen
    omega
  | succ f =>
    rw [csAux]
    simp only [hsplit]
    rw [csAux_zero ((containsSub_eq_false_iff _ _).mp hy)]

theorem wmOpenL_cons : wmOpenL = '<' :: ("div class=\"watermark\">").toList := by
  decide

theorem divCloseL_cons : divCloseL = '<' :: ("/div>").toList := by
  decide

theorem wmOpenL_borderFree : borderFree wmOpenL := by decide

theorem composeHtml_decomp (htmlContent paperFormat paperOrientation
    wm : List Char) (hasM : Bool) :
    composeHtml htmlContent paperFormat paperOrientation wm hasM =
      (composeBefore paperFormat paperOrientation hasM ++
        (htmlContent ++ contentCloseL)) ++
      (if wm.isEmpty then [] else wmOpenL ++ wm ++ divCloseL) ++
      composeAfterL := by
  simp [composeHtml, List.append_assoc]

set_option maxHeartbeats 2000000 in
/-- **C5**: the composed document contains exactly one watermark overlay
element, holding the watermark text, iff the watermark is nonempty; an empty
watermark (the default) produces no watermark element.  Hypotheses: the rest
of the document (the watermark-free composition) contains no watermark
opening tag, and the watermark text has no `<` (as every watermark passing
the declared `[A-Z0-9\s-]` pattern does). -/
theorem claim_C5_watermark (htmlContent paperFormat paperOrientation
    wm : List Char) (hasM : Bool)
    (hdoc : containsSub wmOpenL
      (composeHtml htmlContent paperFormat paperOrientation [] hasM) = false)
    (hwm : (wm.all fun c => c != '<') = true) :
    (wm ≠ [] →
      countSub wmOpenL
        (composeHtml htmlContent paperFormat paperOrientation wm hasM) = 1 ∧
      wmTextOf (composeHtml htmlContent paperFormat paperOrientation wm hasM)
        = some wm) ∧
    (wm = [] →
      countSub wmOpenL
        (composeHtml htmlContent paperFormat paperOrientation wm hasM) = 0) := by
  have hnotin : '<' ∉ wm := by
    intro hmem
    have := List.all_eq_true.mp hwm '<' hmem
    simp at this
  have hXfree : containsSub wmOpenL
      (composeBefore paperFormat paperOrientation hasM ++
        (htmlContent ++ contentCloseL)) = false := by
    have h1 : composeHtml htmlContent paperFormat paperOrientation [] hasM =
        (composeBefore paperFormat paperOrientation hasM ++
          (htmlContent ++ contentCloseL)) ++ composeAfterL := by
      simp [composeHtml, List.append_assoc]
    rw [h1] at hdoc
    exact containsSub_append_right hdoc
  have hXnone : splitAtSub wmOpenL
      (composeBefore paperFormat paperOrientation hasM ++
        (htmlContent ++ contentCloseL)) = none :=
    (containsSub_eq_false_iff _ _).mp hXfree
  constructor
  · intro hne
    have hie : wm.isEmpty = false := by
      simpa [List.isEmpty_iff] using hne
    have hshape : composeHtml htmlContent paperFormat paperOrientation wm hasM
        = (composeBefore paperFormat paperOrientation hasM ++
            (htmlContent ++ contentCloseL)) ++ wmOpenL ++
          (wm ++ (divCloseL ++ composeAfterL)) := by
      rw [composeHtml_decomp]
      simp [hie, List.append_assoc]
    have hTfree : containsSub wmOpenL (divCloseL ++ composeAfterL) = false := by
      decide
    have hYnone : splitAtSub wmOpenL
        (wm ++ (divCloseL ++ composeAfterL)) = none := by
      rw [wmOpenL_cons] at hTfree ⊢
      rw [splitAtSub_append_of_head_notin hnotin,
        (containsSub_eq_false_iff _ _).mp hTfree]
      rfl
    have hYfree : containsSub wmOpenL
        (wm ++ (divCloseL ++ composeAfterL)) = false :=
      (containsSub_eq_false_iff _ _).mpr hYnone
    constructor
    · rw [hshape]
      exact countSub_seam wmOpenL_borderFree (by decide) hXnone hYfree
    · rw [hshape]
      unfold wmTextOf
      have hsplit2 : splitAtSub divCloseL
          (wm ++ (divCloseL ++ composeAfterL)) = some (wm, composeAfterL) := by
        have : wm ++ (divCloseL ++ composeAfterL) =
            wm ++ divCloseL ++ composeAfterL := by
          rw [List.append_assoc]
        rw [this, divCloseL_cons]
        exact splitAtSub_factor_head hnotin
      simp only [splitAtSub_factor_border wmOpenL_borderFree hXnone, hsplit2]
  · intro hemp
    subst hemp
    exact countSub_zero hdoc

set_option maxHeartbeats 4000000 in
theorem claim_C5_witness :
    countSub wmOpenL
      (composeHtml (("<p>hello</p>").toList) (("letter").toList)
        (("portrait").toList) (("DRAFT").toList) false) = 1 ∧
    wmTextOf (composeHtml (("<p>hello</p>").toList) (("letter").toList)
        (("portrait").toList) (("DRAFT").toList) false) =
      some (("DRAFT").toList) :=
  (claim_C5_watermark (("<p>hello</p>").toList) (("letter").toList)
    (("portrait").toList) (("DRAFT").toList) false (by decide) (by decide)).1
    (by decide)
